import Mathlib

/-!
Verification of the CribDragger repository (crib_dragger.py, xor_text_finder.py).

Modelling conventions:
* Python `bytes` values and Python `str` values are both modelled as `List Nat`
  (byte values / Unicode code points).  All texts reachable in the claims are
  ASCII, where the two coincide byte-for-byte.
* `bytes.decode()` (strict UTF-8) is modelled by `utf8Decode`, returning `none`
  on a malformed sequence exactly where CPython raises `UnicodeDecodeError`;
  `bytes.decode(errors='ignore')` is modelled by `utf8DecodeIgnore`.
* Machine integers do not occur: Python integers are unbounded, byte values
  are `Nat`s below 256 and XOR (`Nat.xor`) preserves that range.
-/

namespace CribDragger

/-- Membership in Python's `string.printable` for a single ASCII code point:
the 95 printable characters 0x20-0x7E plus the whitespace `\t\n\v\f\r`. -/
def printableChar (c : Nat) : Bool :=
  (9 ≤ c && c ≤ 13) || (32 ≤ c && c ≤ 126)

/-- Membership in Python's `string.punctuation`
(`!"#$%&'()*+,-./:;<=>?@[\]^_`{|}~`, code points 33-47, 58-64, 91-96, 123-126). -/
def punctChar (c : Nat) : Bool :=
  (33 ≤ c && c ≤ 47) || (58 ≤ c && c ≤ 64) || (91 ≤ c && c ≤ 96) || (123 ≤ c && c ≤ 126)

/-- The forbidden characters of `extra_strict_check`:
the Python literal `'"#$%&\\()*+/<=>@[\\]^`|~'`, i.e.
`" # $ % & ( ) * + / < = > @ [ \ ] ^ ` | ~`. -/
def forbiddenChar (c : Nat) : Bool :=
  c = 34 || c = 35 || c = 36 || c = 37 || c = 38 || c = 40 || c = 41 || c = 42 ||
  c = 43 || c = 47 || c = 60 || c = 61 || c = 62 || c = 64 || c = 91 || c = 92 ||
  c = 93 || c = 94 || c = 96 || c = 124 || c = 126

/-- Python `str.isspace` on the code points that can occur here (the ASCII
whitespace `\t\n\v\f\r `, the file/group/record/unit separators 0x1C-0x1F,
and the Latin-1 whitespace NEL 0x85 and NBSP 0xA0; code points above 0xA0
never arise in the claims' inputs, which are printable ASCII). -/
def pySpaceChar (c : Nat) : Bool :=
  (9 ≤ c && c ≤ 13) || (28 ≤ c && c ≤ 32) || c = 133 || c = 160

/-- Python `str.lower` on one code point, restricted to ASCII (the corpus
words and decoded texts of the claims are ASCII). -/
def pyLowerChar (c : Nat) : Nat :=
  if 65 ≤ c && c ≤ 90 then c + 32 else c

/-- Python `str.lower` on a whole string. -/
def pyLower (s : List Nat) : List Nat := s.map pyLowerChar

/-- A UTF-8 continuation byte (0x80-0xBF). -/
def contByte (b : Nat) : Bool := 128 ≤ b && b ≤ 191

/-- Valid range for the second byte of a three-byte UTF-8 sequence headed by
`b`; 0xE0 excludes overlong encodings, 0xED excludes surrogates. -/
def cont3 (b b2 : Nat) : Bool :=
  if b = 224 then 160 ≤ b2 && b2 ≤ 191
  else if b = 237 then 128 ≤ b2 && b2 ≤ 159
  else contByte b2

/-- Valid range for the second byte of a four-byte UTF-8 sequence headed by
`b`; 0xF0 excludes overlong encodings, 0xF4 caps at U+10FFFF. -/
def cont4 (b b2 : Nat) : Bool :=
  if b = 240 then 144 ≤ b2 && b2 ≤ 191
  else if b = 244 then 128 ≤ b2 && b2 ≤ 143
  else contByte b2

/-- Classify a byte in start position: `some (Sum.inl cp)` for an ASCII byte
(one-byte sequence), `some (Sum.inr (need, acc, lo, hi))` for the lead byte
of a multi-byte sequence (`need` continuation bytes expected, `acc` the code
point bits so far, `lo`-`hi` the valid range for the next byte - the
restricted first-continuation ranges exclude overlong forms, surrogates and
code points above U+10FFFF, exactly the sequences CPython's decoder
rejects), and `none` for an invalid start byte. -/
def utf8Start (b : Nat) : Option (Sum Nat (Nat × Nat × Nat × Nat)) :=
  if b ≤ 127 then some (Sum.inl b)
  else if 194 ≤ b && b ≤ 223 then some (Sum.inr (1, b - 192, 128, 191))
  else if b = 224 then some (Sum.inr (2, 0, 160, 191))
  else if b = 237 then some (Sum.inr (2, 13, 128, 159))
  else if 224 ≤ b && b ≤ 239 then some (Sum.inr (2, b - 224, 128, 191))
  else if b = 240 then some (Sum.inr (3, 0, 144, 191))
  else if b = 244 then some (Sum.inr (3, 4, 128, 143))
  else if 240 ≤ b && b ≤ 244 then some (Sum.inr (3, b - 240, 128, 191))
  else none

/-- Streaming strict UTF-8 decoder: one byte per step, carrying the pending
multi-byte state. -/
def utf8DecodeGo : List Nat → Option (Nat × Nat × Nat × Nat) → Option (List Nat)
  | [], none => some []
  | [], some _ => none
  | b :: rest, none =>
    match utf8Start b with
    | some (Sum.inl cp) => (utf8DecodeGo rest none).map (fun cs => cp :: cs)
    | some (Sum.inr p) => utf8DecodeGo rest (some p)
    | none => none
  | b :: rest, some (need, acc, lo, hi) =>
    if lo ≤ b && b ≤ hi then
      if need ≤ 1 then (utf8DecodeGo rest none).map (fun cs => (acc * 64 + (b - 128)) :: cs)
      else utf8DecodeGo rest (some (need - 1, acc * 64 + (b - 128), 128, 191))
    else none

/-- Strict UTF-8 decoding of a byte sequence into code points, as performed
by Python's `bytes.decode()`: `none` exactly where CPython raises
`UnicodeDecodeError`. -/
def utf8Decode (l : List Nat) : Option (List Nat) :=
  utf8DecodeGo l none

/-- Streaming decoder with `errors='ignore'`: on an invalid or truncated
sequence the offending bytes are dropped and decoding resumes at the next
byte, which is reconsidered as a start byte - CPython's behaviour (its
maximal-subpart rule never swallows a valid start byte, since continuation
bytes are never valid start bytes). -/
def utf8DecodeIgnoreGo : List Nat → Option (Nat × Nat × Nat × Nat) → List Nat
  | [], _ => []
  | b :: rest, none =>
    match utf8Start b with
    | some (Sum.inl cp) => cp :: utf8DecodeIgnoreGo rest none
    | some (Sum.inr p) => utf8DecodeIgnoreGo rest (some p)
    | none => utf8DecodeIgnoreGo rest none
  | b :: rest, some (need, acc, lo, hi) =>
    if lo ≤ b && b ≤ hi then
      if need ≤ 1 then (acc * 64 + (b - 128)) :: utf8DecodeIgnoreGo rest none
      else utf8DecodeIgnoreGo rest (some (need - 1, acc * 64 + (b - 128), 128, 191))
    else
      match utf8Start b with
      | some (Sum.inl cp) => cp :: utf8DecodeIgnoreGo rest none
      | some (Sum.inr p) => utf8DecodeIgnoreGo rest (some p)
      | none => utf8DecodeIgnoreGo rest none

/-- UTF-8 decoding with `errors='ignore'`, as performed by Python's
`bytes.decode(errors='ignore')`. -/
def utf8DecodeIgnore (l : List Nat) : List Nat :=
  utf8DecodeIgnoreGo l none

/-- The invariant of reachable pending states: the accumulated bits (or the
restricted range of the next byte) are large enough that the emitted code
point is at least 0x80. -/
def stInv : Option (Nat × Nat × Nat × Nat) → Prop
  | none => True
  | some (need, acc, lo, _) => (need = 1 ∧ 2 ≤ acc) ∨ (2 ≤ need ∧ (1 ≤ acc ∨ 144 ≤ lo))

/-- Source: `xor_key_text(key, text)` (xor_text_finder.py).  `pwn.xor` cycles
the shorter argument and the result is then truncated to
`min(len(key), len(text))`, so byte `i` of the result is `key[i] XOR text[i]`
for every `i` below that length - exactly `List.zipWith Nat.xor`. -/
def xor_key_text (key text : List Nat) : List Nat :=
  List.zipWith Nat.xor key text

/-- Source: `xor_key_text_list(key, text_list)` (xor_text_finder.py). -/
def xor_key_text_list (key : List Nat) (text_list : List (List Nat)) : List (List Nat) :=
  text_list.map (fun text => xor_key_text key text)

/-- Source: `extra_strict_check(sentence)` (xor_text_finder.py), on a `bytes`
argument: decode with `errors='ignore'` and require that no decoded character
is in the forbidden set. -/
def extra_strict_check (sentence : List Nat) : Bool :=
  (utf8DecodeIgnore sentence).all (fun c => !forbiddenChar c)

/-- Source: `check_ascii(text)` (xor_text_finder.py), on a `bytes` argument:
strict decode (failure gives `False`), then every character must be in
`string.printable`. -/
def check_ascii (text : List Nat) : Bool :=
  match utf8Decode text with
  | none => false
  | some cs => cs.all printableChar

/-- Source: `check_potential_stream(target_key, text_list, strict)`
(xor_text_finder.py).  Returns the XOR-decoded stream when every element is
printable ASCII (and, when `strict` is truthy, also free of forbidden
punctuation); `none` models Python's `None`. -/
def check_potential_stream (target_key : List Nat) (text_list : List (List Nat))
    (strict : Bool) : Option (List (List Nat)) :=
  let xored_stream := xor_key_text_list target_key text_list
  if xored_stream.all check_ascii then
    if strict then
      if xored_stream.all extra_strict_check then some xored_stream else none
    else some xored_stream
  else none

/-- Python `str.split()` with no separator: split on runs of whitespace,
dropping empty fragments. -/
def pySplit (s : List Nat) : List (List Nat) :=
  (s.splitOnP pySpaceChar).filter (fun w => !w.isEmpty)

/-- Python `min(keys, key=len)`: the first element of minimal length
(`[]` on an empty list, where Python would raise `ValueError`). -/
def pyMinByLen : List (List Nat) → List Nat
  | [] => []
  | x :: xs => xs.foldl (fun m k => if k.length < m.length then k else m) x

/-- Python `max(keys, key=len)`: the first element of maximal length
(`[]` on an empty list, where Python would raise `ValueError`). -/
def pyMaxByLen : List (List Nat) → List Nat
  | [] => []
  | x :: xs => xs.foldl (fun m k => if m.length < k.length then k else m) x

/-- Python `needle in hay` on `bytes`: contiguous substring containment
(an empty needle is always contained). -/
def pyBytesContains (needle : List Nat) : List Nat → Bool
  | [] => needle.isEmpty
  | x :: t => needle.isPrefixOf (x :: t) || pyBytesContains needle t

/-- Source: `verify_substring_keys(keys)` (xor_text_finder.py): `True` when
the first shortest key is a contiguous substring of every key in the list,
`False` on an empty list. -/
def verify_substring_keys (keys : List (List Nat)) : Bool :=
  match keys with
  | [] => false
  | _ :: _ => keys.all (fun k => pyBytesContains (pyMinByLen keys) k)

/-- One step of a stable insertion sort, descending in `key`: `x` moves left
past exactly the elements with strictly greater key, so equal-key elements
keep their original relative order. -/
def insertDescBy (key : α → Nat) (x : α) : List α → List α
  | [] => [x]
  | y :: ys => if key x < key y then y :: insertDescBy key x ys else x :: y :: ys

/-- Python `sorted(l, key=key, reverse=True)`: a stable sort, descending in
`key` (Python's sort is specified as stable; stable insertion sort realises
the same function). -/
def pySortDescBy (key : α → Nat) (l : List α) : List α :=
  l.foldr (insertDescBy key) []

/-- One step of a stable insertion sort, ascending in `key`. -/
def insertAscBy (key : α → Nat) (x : α) : List α → List α
  | [] => [x]
  | y :: ys => if key y < key x then y :: insertAscBy key x ys else x :: y :: ys

/-- Python `sorted(l, key=key)`: a stable ascending sort. -/
def pySortAscBy (key : α → Nat) (l : List α) : List α :=
  l.foldr (insertAscBy key) []

/-- The state of `WordFinder` after `init_words` (xor_text_finder.py): the
word list (base words, plural and optionally capitalised forms, deduplicated,
sorted by length - corpus acquisition is external, so the lists are
parameters here) and the Brown-corpus frequency model, a mapping from word to
occurrence count modelled as an association list with distinct keys. -/
structure WordFinder where
  all_words : List (List Nat)
  freq_dist : List (List Nat × Nat)

/-- Lookup in the frequency model: `some count` when the word is a key
(Python `word in freq_dist` / `freq_dist[word]`). -/
def fdFind : List (List Nat × Nat) → List Nat → Option Nat
  | [], _ => none
  | e :: rest, w => if e.1 = w then some e.2 else fdFind rest w

/-- The frequency assigned to one word inside `sort_with_frequencies`
(xor_text_finder.py, lines 152-159): the count of the word itself, maximised
with the count of its lowercase form when both are present; the lowercase
count alone when only it is present; 0 otherwise. -/
def freqOf (wf : WordFinder) (w : List Nat) : Nat :=
  match fdFind wf.freq_dist w with
  | some f =>
    match fdFind wf.freq_dist (pyLower w) with
    | some g => max f g
    | none => f
  | none =>
    match fdFind wf.freq_dist (pyLower w) with
    | some g => g
    | none => 0

/-- Source: `WordFinder.sort_with_frequencies(matching_words)`
(xor_text_finder.py): keep the words with nonzero frequency, in input order,
then stable-sort descending by frequency and drop the scores. -/
def sort_with_frequencies (wf : WordFinder) (matching_words : List (List Nat)) :
    List (List Nat) :=
  let scored_words := matching_words.filterMap (fun w =>
    let f := freqOf wf w
    if f ≠ 0 then some (w, f) else none)
  (pySortDescBy (fun p => p.2) scored_words).map (fun p => p.1)

/-- Modelled from the spec (claim C6 wording): `rank_by_frequency` with a
frequency obtained by case-sensitive lookup *falling back* to the lowercase
form - i.e. the lowercase count is consulted only when the word itself is
absent.  This is the comparison point for the refinement claim C6; the
source's `sort_with_frequencies` instead maximises over both lookups. -/
def rank_by_frequency_spec (wf : WordFinder) (ws : List (List Nat)) : List (List Nat) :=
  let freqFallback := fun w =>
    match fdFind wf.freq_dist w with
    | some f => f
    | none => (fdFind wf.freq_dist (pyLower w)).getD 0
  let scored := ws.filterMap (fun w =>
    let f := freqFallback w
    if f ≠ 0 then some (w, f) else none)
  (pySortDescBy (fun p => p.2) scored).map (fun p => p.1)

/-- Source: `WordFinder.get_matching_words(prefix, words_list, add_space)`
(xor_text_finder.py): corpus words starting with the given fragment, ranked
by frequency, each substituted for the last word of the sentence
(`' '.join(words_list[:-1])` followed by a space and the completion),
optionally with a trailing space. -/
def get_matching_words (wf : WordFinder) (pre : List Nat)
    (words_list : List (List Nat)) (add_space : Bool) : List (List Nat) :=
  let matching_words := wf.all_words.filter (fun w => pre.isPrefixOf w)
  let sorted_words := sort_with_frequencies wf matching_words
  let base_sentence := List.intercalate [32] words_list.dropLast
  let potential_sentences := sorted_words.map (fun w => base_sentence ++ 32 :: w)
  if add_space then potential_sentences.map (fun s => s ++ [32]) else potential_sentences

/-- Source: `WordFinder.match_sentence(sentence, strict, add_space)`
(xor_text_finder.py), on a `bytes` argument (decoded with `errors='ignore'`):
when the last whitespace-delimited word is free of punctuation and either (in
strict mode) unknown to the corpus or (in loose mode) of length at least 2,
return the candidate completions; otherwise `None`. -/
def match_sentence (wf : WordFinder) (sentence : List Nat)
    (strict add_space : Bool) : Option (List (List Nat)) :=
  let s := utf8DecodeIgnore sentence
  let words := pySplit s
  match words with
  | [] => none
  | _ :: _ =>
    let last_word := words.getLastD []
    if !last_word.isEmpty && last_word.all (fun c => !punctChar c) then
      if strict then
        if !wf.all_words.contains last_word then
          some (get_matching_words wf last_word words add_space)
        else none
      else
        if 2 ≤ last_word.length then
          some (get_matching_words wf last_word words add_space)
        else none
    else none

/-- Source: `WordFinder.check_sentence(sentence, strict)` (xor_text_finder.py),
on a `bytes` argument: strict decode (failure gives `False`), printable-ASCII
check, and in strict mode every word of the punctuation-stripped text must be
a corpus word. -/
def check_sentence (wf : WordFinder) (sentence : List Nat) (strict : Bool) : Bool :=
  match utf8Decode sentence with
  | none => false
  | some cs =>
    if cs.all printableChar then
      if strict then
        (pySplit (cs.filter (fun c => !punctChar c))).all (fun w => wf.all_words.contains w)
      else true
    else false

/-- Source: `WordFinder.filter_streams(key_list, text_list, strict)`
(xor_text_finder.py): for each key and each text (nested loops in that
order), keep the pair when the decoded text is a strictly valid sentence
(plus the extra punctuation filter when `strict == 2`); returns
`(valid_results, valid_keys)`, one entry per passing (key, text) pair. -/
def filter_streams (wf : WordFinder) (key_list text_list : List (List Nat))
    (strict : Nat) : List (List Nat) × List (List Nat) :=
  key_list.foldl (fun acc key =>
    text_list.foldl (fun acc text =>
      let decoded_text := xor_key_text key text
      if check_sentence wf decoded_text true then
        if strict = 2 then
          if extra_strict_check decoded_text then
            (acc.1 ++ [decoded_text], acc.2 ++ [key])
          else acc
        else (acc.1 ++ [decoded_text], acc.2 ++ [key])
      else acc) acc) ([], [])

/-- Count held by a key in a `collections.Counter`, modelled as an insertion
ordered association list with distinct keys (0 when absent). -/
def ctrCount (k : List Nat) : List (List Nat × Nat) → Nat
  | [] => 0
  | e :: rest => if e.1 = k then e.2 else ctrCount k rest

/-- Key membership in the counter (Python `k in counter`: present even with
count 0). -/
def ctrMem (k : List Nat) : List (List Nat × Nat) → Bool
  | [] => false
  | e :: rest => e.1 = k || ctrMem k rest

/-- Add 1 to a key's count, appending a fresh entry when absent (dict
insertion order preserved). -/
def ctrIncr (k : List Nat) : List (List Nat × Nat) → List (List Nat × Nat)
  | [] => [(k, 1)]
  | e :: rest => if e.1 = k then (e.1, e.2 + 1) :: rest else e :: ctrIncr k rest

/-- `Counter.update(keys)`: count each key of the list in order. -/
def ctrUpdate (c : List (List Nat × Nat)) (ks : List (List Nat)) :
    List (List Nat × Nat) :=
  ks.foldl (fun c k => ctrIncr k c) c

/-- `counter[k] = v`: overwrite in place, or append a fresh entry. -/
def ctrSet (k : List Nat) (v : Nat) : List (List Nat × Nat) → List (List Nat × Nat)
  | [] => [(k, v)]
  | e :: rest => if e.1 = k then (e.1, v) :: rest else e :: ctrSet k v rest

/-- `del counter[k]`: remove the key's entry (keys are distinct, so filtering
removes exactly that entry). -/
def ctrDel (k : List Nat) (c : List (List Nat × Nat)) : List (List Nat × Nat) :=
  c.filter (fun e => e.1 ≠ k)

/-- Iteration order of the counter's keys (Python `for key in counter`). -/
def ctrKeys (c : List (List Nat × Nat)) : List (List Nat) :=
  c.map (fun e => e.1)

/-- The tally built by `identify_potential_keys` (xor_text_finder.py, lines
274-291): the `counted_keys` Counter after processing every stream's guesses
through `filter_streams`, zeroing the original key, and deleting it when
`strict_filter == 0` (`[]` when the initial stream check aborts, in which
case the function returns before the tally is built). -/
def ipkCounted (wf : WordFinder) (target_key : List Nat)
    (target_texts : List (List Nat)) (strict_filter : Nat) (add_space : Bool) :
    List (List Nat × Nat) :=
  let filtered_texts := target_texts.filter (fun t => target_key.length < t.length)
  match check_potential_stream target_key filtered_texts (strict_filter ≠ 0) with
  | none => []
  | some potential_stream =>
    let c := (potential_stream.zip filtered_texts).foldl (fun c p =>
      match match_sentence wf p.1 false add_space with
      | none => c
      | some matched_sentences =>
        if matched_sentences.isEmpty then c
        else
          let keystreams := matched_sentences.map (fun s => xor_key_text p.2 s)
          ctrUpdate c (filter_streams wf keystreams filtered_texts strict_filter).2) []
    let c := ctrSet target_key 0 c
    if strict_filter = 0 && ctrMem target_key c then ctrDel target_key c else c

/-- The surviving candidates of `identify_potential_keys` (xor_text_finder.py,
lines 293-296): the tallied keys that still pass the full stream check
(Python's truthiness makes an empty returned stream count as failure). -/
def ipkSurvivors (wf : WordFinder) (target_key : List Nat)
    (target_texts : List (List Nat)) (strict_filter : Nat) (add_space : Bool) :
    List (List Nat) :=
  let filtered_texts := target_texts.filter (fun t => target_key.length < t.length)
  match check_potential_stream target_key filtered_texts (strict_filter ≠ 0) with
  | none => []
  | some _ =>
    (ctrKeys (ipkCounted wf target_key target_texts strict_filter add_space)).filter
      (fun k =>
        match check_potential_stream k filtered_texts (strict_filter ≠ 0) with
        | none => false
        | some xs => !xs.isEmpty)

/-- Result of `identify_potential_keys`: a single confident key (`Sum.inl`) or
a list of candidates (`Sum.inr`). -/
abbrev KeyResult := Sum (List Nat) (List (List Nat))

/-- Source: `WordFinder.identify_potential_keys(target_key, target_texts,
strict_filter, add_space)` (xor_text_finder.py): build the tally
(`ipkCounted`), re-validate the keys (`ipkSurvivors`), and either return the
first longest survivor (when the shortest survivor is a substring of all) or
the full survivor list.  The early `return []` on a failed initial stream
check coincides with the survivor list being empty. -/
def identify_potential_keys (wf : WordFinder) (target_key : List Nat)
    (target_texts : List (List Nat)) (strict_filter : Nat) (add_space : Bool) :
    KeyResult :=
  let new_target_keys := ipkSurvivors wf target_key target_texts strict_filter add_space
  if verify_substring_keys new_target_keys then
    match pySortDescBy List.length new_target_keys with
    | [] => Sum.inr []
    | k :: _ => Sum.inl k
  else Sum.inr new_target_keys

/-! ## The interactive session (crib_dragger.py) -/

/-- One oracle exchange: the input line the oracle types at a prompt, or a
`KeyboardInterrupt` raised at that prompt. -/
inductive OEvent where
  | interrupt
  | str (s : List Nat)
deriving DecidableEq, Repr

/-- The oracle as a list of its successive responses. -/
abbrev Oracle := List OEvent

/-- Consume the next oracle event.  An exhausted oracle is modelled as an
interrupt: the source would block forever on `input()` (flagged as an open
gap in the spec), and interruption is the closest terminating behaviour. -/
def nextEvent : Oracle → OEvent × Oracle
  | [] => (OEvent.interrupt, [])
  | e :: rest => (e, rest)

/-- The yes test `result[:1].lower() in ['1', 'y']` shared by the prompts of
crib_dragger.py (false on an empty reply). -/
def yesish (s : List Nat) : Bool :=
  match s with
  | [] => false
  | c :: _ => pyLowerChar c = 49 || pyLowerChar c = 121

/-- Decimal digits accumulator for `pyParseInt`. -/
def parseDigitsAux : List Nat → Nat → Option Nat
  | [], acc => some acc
  | d :: ds, acc =>
    if 48 ≤ d && d ≤ 57 then parseDigitsAux ds (acc * 10 + (d - 48)) else none

/-- Python `int(s)` on an input line: surrounding whitespace stripped, an
optional sign, then at least one decimal digit; `none` models `ValueError`.
(Digit-group underscores are not modelled; no claim depends on them.) -/
def pyParseInt (s : List Nat) : Option Int :=
  let t := ((s.dropWhile pySpaceChar).reverse.dropWhile pySpaceChar).reverse
  match t with
  | [] => none
  | 45 :: ds =>
    match ds with
    | [] => none
    | _ :: _ => (parseDigitsAux ds 0).map (fun n => -(n : Int))
  | 43 :: ds =>
    match ds with
    | [] => none
    | _ :: _ => (parseDigitsAux ds 0).map (fun n => (n : Int))
  | ds => (parseDigitsAux ds 0).map (fun n => (n : Int))

/-- Python list indexing `l[i]` with negative-index wrap-around; `none`
models `IndexError`. -/
def pyIndex (l : List (List Nat)) (i : Int) : Option (List Nat) :=
  if 0 ≤ i then l.get? i.toNat
  else if 0 ≤ i + l.length then l.get? (i + l.length).toNat
  else none

/-- Source: `CribDragger.get_input_key(target_key, target_texts)`
(crib_dragger.py): show the oracle the ciphertexts longer than the current
key decoded under it; read an index line and a plaintext line; derive
`xor_key_text(fragment, set_text[index])` and return it only when the
corpus-free stream validation passes (Python truthiness: a `None` or empty
stream fails); on an unparseable index, failed ASCII assertion, bad index,
failed validation or interrupt the previous key is returned.  Consumes up to
two oracle events. -/
def get_input_key (target_key : List Nat) (target_texts : List (List Nat))
    (o : Oracle) : List Nat × Oracle :=
  let set_text := target_texts.filter (fun t => target_key.length < t.length)
  match nextEvent o with
  | (OEvent.interrupt, o1) => (target_key, o1)
  | (OEvent.str s, o1) =>
    match pyParseInt s with
    | none => (target_key, o1)
    | some idx =>
      match nextEvent o1 with
      | (OEvent.interrupt, o2) => (target_key, o2)
      | (OEvent.str frag, o2) =>
        if check_ascii frag then
          match pyIndex set_text idx with
          | none => (target_key, o2)
          | some t =>
            let new_key := xor_key_text frag t
            match check_potential_stream new_key set_text false with
            | none => (target_key, o2)
            | some xs => (if xs.isEmpty then target_key else new_key, o2)
        else (target_key, o2)

/-- Result of `validate_key`: an interrupt escaping to the session loop, or
the oracle's answer (`some key` on yes, `none` on no). -/
inductive VRes where
  | intr
  | ans (r : Option (List Nat))
deriving DecidableEq, Repr

/-- Source: `CribDragger.validate_key(target_key, set_text)`
(crib_dragger.py): display the decoded texts and ask for confirmation;
consumes one oracle event. -/
def validate_key (target_key : List Nat) (o : Oracle) : VRes × Oracle :=
  match nextEvent o with
  | (OEvent.interrupt, o1) => (VRes.intr, o1)
  | (OEvent.str s, o1) => (VRes.ans (if yesish s then some target_key else none), o1)

/-- Source: `CribDragger.get_invalid_idxs(xored_outputs)` (crib_dragger.py):
the indices whose decode fails the printable-ASCII or the forbidden
punctuation check. -/
def get_invalid_idxs (xored_outputs : List (List Nat)) : List Nat :=
  (xored_outputs.enum.filter
    (fun p => !check_ascii p.2 || !extra_strict_check p.2)).map (fun p => p.1)

/-- Source: `CribDragger.check_and_remove_invalid_chars(target_key, set_text)`
(crib_dragger.py): decode the active set with the key, collect the invalid
indices; without any, return the set unchanged and no rejects, consuming no
event; otherwise ask the oracle and either drop the flagged ciphertexts
(returning them as the invalid record) or keep everything.  The outer `none`
models an interrupt at the prompt. -/
def check_and_remove_invalid_chars (target_key : List Nat)
    (set_text : List (List Nat)) (o : Oracle) :
    Option (List (List Nat) × List (List Nat)) × Oracle :=
  let xored_outputs := xor_key_text_list target_key set_text
  let invalid_ids := get_invalid_idxs xored_outputs
  if invalid_ids.isEmpty then (some (set_text, []), o)
  else
    match nextEvent o with
    | (OEvent.interrupt, o1) => (none, o1)
    | (OEvent.str s, o1) =>
      if yesish s then
        (some ((set_text.enum.filter (fun p => !invalid_ids.contains p.1)).map (fun p => p.2),
          invalid_ids.filterMap (fun i => set_text.get? i)), o1)
      else (some (set_text, []), o1)

/-- Result of `check_new_target_keys`: `exn` models the uncaught
`ValueError`/`IndexError` (empty candidate list, unparseable index, index out
of range) propagating to the caller's generic `except`; an interrupt is
caught locally and yields the first maximal-length candidate. -/
inductive CNRes where
  | exn
  | key (k : List Nat)
  | keys (l : List (List Nat))
deriving DecidableEq, Repr

/-- Source: `CribDragger.check_new_target_keys(new_target_keys, set_text)`
(crib_dragger.py): display the candidates of maximal length; on yes read an
index into them, otherwise return the non-maximal candidates. -/
def check_new_target_keys (new_target_keys : List (List Nat)) (o : Oracle) :
    CNRes × Oracle :=
  match new_target_keys with
  | [] => (CNRes.exn, o)
  | _ :: _ =>
    let max_length := (pyMaxByLen new_target_keys).length
    let small_keys := new_target_keys.filter (fun x => x.length = max_length)
    match nextEvent o with
    | (OEvent.interrupt, o1) => (CNRes.key (small_keys.headD []), o1)
    | (OEvent.str s, o1) =>
      if yesish s then
        match nextEvent o1 with
        | (OEvent.interrupt, o2) => (CNRes.key (small_keys.headD []), o2)
        | (OEvent.str t, o2) =>
          match pyParseInt t with
          | none => (CNRes.exn, o2)
          | some i =>
            match pyIndex small_keys i with
            | none => (CNRes.exn, o2)
            | some k => (CNRes.key k, o2)
      else (CNRes.keys (new_target_keys.filter (fun x => !small_keys.contains x)), o1)

/-- Result of `get_new_keys`: an escaping exception, or the final value
(`some key`, or `none` when the candidates ran out). -/
inductive GNRes where
  | exn
  | ok (k : Option (List Nat))
deriving DecidableEq, Repr

/-- Source: the `while isinstance(new_keys, list)` loop of
`CribDragger.get_new_keys` (crib_dragger.py), entered with a list: repeat
`check_new_target_keys` until it yields a single key (an empty `bytes` is
falsy and becomes `None`), the candidates run out, or an exception escapes.
Termination: the candidate list shrinks strictly, since the first
maximal-length key is always removed. -/
def get_new_keys_list (l : List (List Nat)) (o : Oracle) : GNRes × Oracle :=
  match h : check_new_target_keys l o with
  | (CNRes.exn, o1) => (GNRes.exn, o1)
  | (CNRes.key k, o1) => ((if k.isEmpty then GNRes.ok none else GNRes.ok (some k)), o1)
  | (CNRes.keys l2, o1) =>
    if l2.isEmpty then (GNRes.ok none, o1)
    else get_new_keys_list l2 o1
termination_by l.length
decreasing_by
  have hfl : ∀ (p : List Nat → Bool) (ls : List (List Nat)) (a : List Nat),
      a ∈ ls → p a = false → (ls.filter p).length < ls.length := by
    intro p ls
    induction ls with
    | nil => intro a ha _ ; cases ha
    | cons y ys ih =>
      intro a ha hpa
      rcases List.mem_cons.mp ha with rfl | hmem
      · have hle := List.length_filter_le p ys
        simp [List.filter_cons, hpa]
        omega
      · by_cases hpy : p y = true
        · have := ih a hmem hpa
          simp [List.filter_cons, hpy]
          omega
        · have := ih a hmem hpa
          simp [List.filter_cons, hpy]
          omega
  have hfold : ∀ (ys : List (List Nat)) (a : List Nat),
      ys.foldl (fun m k => if m.length < k.length then k else m) a ∈ a :: ys := by
    intro ys
    induction ys with
    | nil => intro a; simp
    | cons y ys ih =>
      intro a
      simp only [List.foldl_cons]
      rcases List.mem_cons.mp (ih (if a.length < y.length then y else a)) with heq | hmem
      · rw [heq]
        split
        · exact List.mem_cons_of_mem _ (List.mem_cons_self _ _)
        · exact List.mem_cons_self _ _
      · exact List.mem_cons_of_mem _ (List.mem_cons_of_mem _ hmem)
  rcases l with _ | ⟨x, xs⟩
  · simp [check_new_target_keys] at h
  · simp only [check_new_target_keys] at h
    have hmax : pyMaxByLen (x :: xs) ∈ x :: xs := by
      simpa [pyMaxByLen] using hfold xs x
    rcases hnext : nextEvent o with ⟨ev, o2⟩
    rw [hnext] at h
    rcases ev with _ | s
    · simp at h
    · simp only [] at h
      by_cases hy : yesish s
      · rw [if_pos hy] at h
        rcases hnext2 : nextEvent o2 with ⟨ev2, o3⟩
        rw [hnext2] at h
        rcases ev2 with _ | t
        · simp at h
        · simp only [] at h
          split at h <;> (try split at h) <;> simp_all
      · rw [if_neg hy] at h
        simp only [Prod.mk.injEq, CNRes.keys.injEq] at h
        rcases h with ⟨hl2, _⟩
        subst hl2
        refine hfl _ _ (pyMaxByLen (x :: xs)) hmax ?_
        have hmem2 : pyMaxByLen (x :: xs) ∈
            (x :: xs).filter (fun y => y.length = (pyMaxByLen (x :: xs)).length) :=
          List.mem_filter.mpr ⟨hmax, by simp⟩
        have hc : (List.filter (fun y => decide (y.length = (pyMaxByLen (x :: xs)).length))
            (x :: xs)).contains (pyMaxByLen (x :: xs)) = true :=
          List.elem_eq_true_of_mem hmem2
        simp [hc]
        intro hne
        rcases List.mem_cons.mp hmax with h1 | h1
        · exact absurd h1 hne
        · exact h1

/-- Source: `CribDragger.get_new_keys(new_target_keys, set_text)`
(crib_dragger.py): a `bytes` argument (the generator returned a single key)
skips the loop and is returned as is. -/
def get_new_keys (new_target_keys : KeyResult) (o : Oracle) : GNRes × Oracle :=
  match new_target_keys with
  | Sum.inl k => (GNRes.ok (some k), o)
  | Sum.inr l => get_new_keys_list l o

/-- The two kinds of recorded decode events: the loop-top state right after
pruning, and a cleanup decode of the active set with a newly confirmed key. -/
inductive SnapKind where
  | loopTop
  | cleanup
deriving DecidableEq, Repr

/-- A decode snapshot: which key was used on which active ciphertext set. -/
structure Snap where
  kind : SnapKind
  key : List Nat
  texts : List (List Nat)
deriving DecidableEq, Repr

/-- The possible returns of `interactive_crib_dragging` (crib_dragger.py):
`keyOnly` for the bare-key return of line 151, `keyInv` for the
`(key, invalid_pts)` returns of lines 161/164, `pairInv` for the
`((target_key, my_new_key), invalid_pts)` returns (the second component may
be Python `None`), and `fuelOut` marking exhaustion of the loop-unrolling
depth (an artefact of the fuel-indexed model, not a source behaviour). -/
inductive SessionResult where
  | keyOnly (k : List Nat)
  | keyInv (k : List Nat) (inv : List (List Nat))
  | pairInv (k : List Nat) (k2 : Option (List Nat)) (inv : List (List Nat))
  | fuelOut (k : List Nat) (inv : List (List Nat))
deriving DecidableEq, Repr

/-- Python truthiness of the `my_new_key` variable (`None` and empty `bytes`
are falsy). -/
def optTruthy : Option (List Nat) → Bool
  | none => false
  | some k => !k.isEmpty

/-- Result of `validateAndClean`: an interrupt (reporting the value
`my_new_key` holds at that moment), or the new `my_new_key` with the possibly
thinned active set and the newly rejected ciphertexts. -/
inductive VCRes where
  | intr (mnkAt : Option (List Nat))
  | res (mnk : Option (List Nat)) (set_text invalid_pts : List (List Nat))
deriving DecidableEq, Repr

/-- The recurring sequence of crib_dragger.py (lines 175-179, 182-186,
188-192, 194-198): `my_new_key = validate_key(cand, set_text)`, and when
truthy `set_text, pts = check_and_remove_invalid_chars(my_new_key,
set_text)`.  `mnkPrior` is the (falsy) value `my_new_key` holds beforehand,
reported when the validation prompt is interrupted; a `cleanup` snapshot
records the `check_and_remove_invalid_chars` decode of the active set with
the newly confirmed key. -/
def validateAndClean (mnkPrior : Option (List Nat)) (cand : List Nat)
    (set_text : List (List Nat)) (o : Oracle) : VCRes × List Snap × Oracle :=
  match validate_key cand o with
  | (VRes.intr, o1) => (VCRes.intr mnkPrior, [], o1)
  | (VRes.ans r, o1) =>
    if optTruthy r then
      let k := r.getD []
      match check_and_remove_invalid_chars k set_text o1 with
      | (none, o2) => (VCRes.intr (some k), [⟨SnapKind.cleanup, k, set_text⟩], o2)
      | (some (st2, pts), o2) =>
        (VCRes.res (some k) st2 pts, [⟨SnapKind.cleanup, k, set_text⟩], o2)
    else (VCRes.res r set_text [], [], o1)

/-- Result of the no-progress retry block: an interrupt (with the current
`my_new_key`), or the final `my_new_key` together with the local
`my_new_key_` candidate, the possibly thinned set and the rejects. -/
inductive NPRes where
  | intr (mnkAt : Option (List Nat))
  | res (mnk mnkCand : Option (List Nat)) (set_text invalid_pts : List (List Nat))
deriving DecidableEq, Repr

/-- The no-progress retry block of crib_dragger.py (lines 172-186): rerun the
generator at strictness 0, disambiguate via `get_new_keys`, validate and
clean; any `Exception` inside (empty-candidate `max()`, unparseable or
out-of-range index in `check_new_target_keys`, or `validate_key(None, ...)`
raising `TypeError` on a nonempty set) falls back to manual input followed by
the same validate-and-clean sequence.  A `KeyboardInterrupt` is not an
`Exception` and escapes. -/
def noProgressInner (wf : WordFinder) (tk : List Nat) (st : List (List Nat))
    (o : Oracle) : NPRes × List Snap × Oracle :=
  let manual := fun (o : Oracle) =>
    let p := get_input_key tk st o
    match validateAndClean none p.1 st p.2 with
    | (VCRes.intr m, snaps, o2) => (NPRes.intr m, snaps, o2)
    | (VCRes.res mnk st2 pts, snaps, o2) => (NPRes.res mnk (some p.1) st2 pts, snaps, o2)
  match
    (match identify_potential_keys wf tk st 0 true with
     | Sum.inl k => (GNRes.ok (some k), o)
     | Sum.inr l => get_new_keys_list l o) with
  | (GNRes.exn, o1) => manual o1
  | (GNRes.ok mnkCand, o1) =>
    match mnkCand with
    | none =>
      if st.isEmpty then
        match nextEvent o1 with
        | (OEvent.interrupt, o2) => (NPRes.intr none, [], o2)
        | (OEvent.str _, o2) => (NPRes.res none none st [], [], o2)
      else manual o1
    | some cand =>
      match validateAndClean none cand st o1 with
      | (VCRes.intr m, snaps, o2) => (NPRes.intr m, snaps, o2)
      | (VCRes.res mnk st2 pts, snaps, o2) => (NPRes.res mnk (some cand) st2 pts, snaps, o2)

/-- The shared tail of one loop iteration (crib_dragger.py lines 165-201),
entered with the proposed key `new_target_key`: validate it, on progress
adopt it and continue (`recur` is the rest of the loop), on no progress run
the retry block, falling back to manual input, cleanup, and the failure
return.  `recur` receives the next `my_new_key`, active set, invalid record
and oracle. -/
def sessionCommon (wf : WordFinder) (tk ntk : List Nat)
    (st1 inv : List (List Nat)) (o : Oracle) (snapTop : Snap)
    (recur : List Nat → List (List Nat) → List (List Nat) → Oracle →
      SessionResult × List Snap) : SessionResult × List Snap :=
  match validate_key ntk o with
  | (VRes.intr, _) => (SessionResult.pairInv tk none inv, [snapTop])
  | (VRes.ans r, o1) =>
    if optTruthy r && !decide (tk = ntk) then
      let p := recur ntk st1 inv o1
      (p.1, snapTop :: p.2)
    else if optTruthy r then
      match noProgressInner wf tk st1 o1 with
      | (NPRes.intr m, snaps, _) => (SessionResult.pairInv tk m inv, snapTop :: snaps)
      | (NPRes.res mnk2 _ st2 pts, snaps, o2) =>
        let inv2 := inv ++ pts
        if optTruthy mnk2 then
          let p := recur (mnk2.getD []) st2 inv2 o2
          (p.1, snapTop :: snaps ++ p.2)
        else
          let q := get_input_key tk st2 o2
          match validateAndClean mnk2 q.1 st2 q.2 with
          | (VCRes.intr m, snaps2, _) =>
            (SessionResult.pairInv tk m inv2, snapTop :: snaps ++ snaps2)
          | (VCRes.res mnk3 st3 pts2, snaps2, o4) =>
            let inv3 := inv2 ++ pts2
            if optTruthy mnk3 then
              let p := recur (mnk3.getD []) st3 inv3 o4
              (p.1, snapTop :: snaps ++ snaps2 ++ p.2)
            else
              (SessionResult.pairInv tk (some q.1) inv3, snapTop :: snaps ++ snaps2)
    else
      let q := get_input_key tk st1 o1
      match validateAndClean none q.1 st1 q.2 with
      | (VCRes.intr m, snaps2, _) => (SessionResult.pairInv tk m inv, snapTop :: snaps2)
      | (VCRes.res mnk3 st3 pts2, snaps2, o4) =>
        let inv3 := inv ++ pts2
        if optTruthy mnk3 then
          let p := recur (mnk3.getD []) st3 inv3 o4
          (p.1, snapTop :: snaps2 ++ p.2)
        else
          (SessionResult.pairInv tk (some q.1) inv3, snapTop :: snaps2)

/-- Source: the `while len(set_text) != 1` loop of
`CribDragger.interactive_crib_dragging` (crib_dragger.py), as a fuel-indexed
unrolling (each unit of fuel is one iteration; `fuelOut` marks exhaustion of
the unrolling depth).  `tkVar` and `mnk` carry the `target_key` and
`my_new_key` variables at the loop condition; `inv` accumulates
`self.invalid_pts`.  Besides the source's return value the model returns the
trace of decode snapshots: a `loopTop` snapshot for the iteration state
right after pruning, and through `validateAndClean` a `cleanup` snapshot for
every `check_and_remove_invalid_chars` decode. -/
def sessionLoop (wf : WordFinder) :
    Nat → List Nat → List Nat → List (List Nat) → List (List Nat) → Oracle →
    SessionResult × List Snap
  | 0, _, mnk, _, inv, _ => (SessionResult.fuelOut mnk inv, [])
  | fuel + 1, tkVar, mnk, set_text, inv, o =>
    if set_text.length = 1 then (SessionResult.pairInv tkVar (some mnk) inv, [])
    else
      let tk := mnk
      let st1 := set_text.filter (fun x => tk.length < x.length)
      let snapTop : Snap := ⟨SnapKind.loopTop, tk, st1⟩
      if st1.length = 1 then (SessionResult.keyOnly tk, [snapTop])
      else
        match identify_potential_keys wf tk st1 2 true with
        | Sum.inr l =>
          if l.isEmpty then (SessionResult.keyInv tk inv, [snapTop])
          else
            let temp := (pySortAscBy List.length l).getLastD []
            match validate_key temp o with
            | (VRes.intr, _) => (SessionResult.pairInv tk (some tk) inv, [snapTop])
            | (VRes.ans r, o1) =>
              if optTruthy r then
                sessionCommon wf tk temp st1 inv o1 snapTop
                  (fun mnk2 st inv2 o2 => sessionLoop wf fuel tk mnk2 st inv2 o2)
              else (SessionResult.keyInv tk inv, [snapTop])
        | Sum.inl k =>
          sessionCommon wf tk k st1 inv o snapTop
            (fun mnk2 st inv2 o2 => sessionLoop wf fuel tk mnk2 st inv2 o2)

/-- Source: `CribDragger.interactive_crib_dragging(target_key, set_text)`
(crib_dragger.py): `my_new_key` starts as the given key and `invalid_pts`
empty. -/
def interactive_crib_dragging (wf : WordFinder) (fuel : Nat)
    (target_key : List Nat) (set_text : List (List Nat)) (o : Oracle) :
    SessionResult × List Snap :=
  sessionLoop wf fuel target_key target_key set_text [] o

/-- A concrete empty corpus used by concrete evaluations. -/
def wfEmpty : WordFinder := ⟨[], []⟩

/-- A concrete corpus knowing only the word "abc" (bytes 97 98 99) with Brown
frequency 5. -/
def wfAbc : WordFinder := ⟨[[97, 98, 99]], [([97, 98, 99], 5)]⟩

/-- A concrete frequency model with "The" at 2, "the" at 10 and "xx" at 5
(word bytes: The = 84 104 101, the = 116 104 101, xx = 120 120). -/
def wfThe : WordFinder :=
  ⟨[], [([84, 104, 101], 2), ([116, 104, 101], 10), ([120, 120], 5)]⟩

/-- A concrete oracle script: answer "n" to the first validation prompt,
then "0" as a text index, "abcdefgh" as the claimed plaintext, and "y" to
the next validation prompt. -/
def oracleRun : Oracle :=
  [OEvent.str [110], OEvent.str [48], OEvent.str [97, 98, 99, 100, 101, 102, 103, 104],
   OEvent.str [121]]

/-! ## Supporting lemmas -/

theorem printableChar_false_of_high (c : Nat) (h : 127 ≤ c) : printableChar c = false := by
  simp [printableChar]
  omega

/-- A classification failure only happens on a byte outside the ASCII
range. -/
theorem utf8Start_none_high (b : Nat) (h : utf8Start b = none) : 128 ≤ b := by
  unfold utf8Start at h
  split_ifs at h <;> simp_all <;> omega

/-- An ASCII classification returns the byte itself. -/
theorem utf8Start_inl (b cp : Nat) (h : utf8Start b = some (Sum.inl cp)) :
    cp = b ∧ b ≤ 127 := by
  unfold utf8Start at h
  split_ifs at h <;> simp_all

/-- A multi-byte lead is outside the ASCII range and produces a pending state
satisfying the invariant. -/
theorem utf8Start_inr (b : Nat) (p : Nat × Nat × Nat × Nat)
    (h : utf8Start b = some (Sum.inr p)) : 128 ≤ b ∧ stInv (some p) := by
  unfold utf8Start at h
  split_ifs at h <;>
    first
      | (simp only [Option.some.injEq, Sum.inr.injEq] at h
         subst h
         (try simp only [Bool.and_eq_true, decide_eq_true_eq] at *)
         dsimp only [stInv]
         omega)
      | simp at h

/-- A pending state emitting its last continuation byte produces a code point
of at least 0x80 (hence non-printable). -/
theorem stInv_emit (need acc lo hi b : Nat)
    (hinv : stInv (some (need, acc, lo, hi))) (hlo : lo ≤ b) (hneed : need ≤ 1) :
    128 ≤ acc * 64 + (b - 128) := by
  dsimp only [stInv] at hinv
  omega

/-- Consuming a non-final continuation byte preserves the state invariant. -/
theorem stInv_step (need acc lo hi b : Nat)
    (hinv : stInv (some (need, acc, lo, hi))) (hlo : lo ≤ b)
    (hneed : ¬need ≤ 1) :
    stInv (some (need - 1, acc * 64 + (b - 128), 128, 191)) := by
  dsimp only [stInv] at hinv ⊢
  omega

/-- Successful strict UTF-8 decoding preserves "all characters printable":
ASCII bytes decode to themselves, and every multi-byte sequence both contains
a non-printable byte and produces a non-printable code point. -/
theorem utf8DecodeGo_some_all : ∀ (l : List Nat) (st : Option (Nat × Nat × Nat × Nat))
    (cs : List Nat), stInv st → utf8DecodeGo l st = some cs →
    cs.all printableChar = (match st with | none => l.all printableChar | some _ => false) := by
  intro l
  induction l with
  | nil =>
    intro st cs hinv h
    rcases st with _ | p
    · simp only [utf8DecodeGo, Option.some.injEq] at h
      simp [← h]
    · simp [utf8DecodeGo] at h
  | cons b rest ih =>
    intro st cs hinv h
    rcases st with _ | ⟨need, acc, lo, hi⟩
    · rw [utf8DecodeGo] at h
      cases hstart : utf8Start b with
      | none =>
        rw [hstart] at h
        simp at h
      | some x =>
        cases x with
        | inl cp =>
          rw [hstart] at h
          simp only [Option.map_eq_some'] at h
          obtain ⟨a, ha, rfl⟩ := h
          obtain ⟨rfl, hble⟩ := utf8Start_inl b cp hstart
          have := ih none a trivial ha
          simp_all
        | inr p =>
          rw [hstart] at h
          obtain ⟨hb, hp⟩ := utf8Start_inr b p hstart
          have := ih (some p) cs hp h
          simp only [] at this
          rw [this]
          simp [List.all_cons, printableChar_false_of_high b (by omega)]
    · rw [utf8DecodeGo] at h
      split_ifs at h with h1 h2 h3
      · simp only [Option.map_eq_some'] at h
        obtain ⟨a, ha, rfl⟩ := h
        simp only [Bool.and_eq_true, decide_eq_true_eq] at h1
        have hcp : 128 ≤ acc * 64 + (b - 128) := stInv_emit need acc lo hi b hinv h1.1 h2
        simp [List.all_cons, printableChar_false_of_high (acc * 64 + (b - 128)) (by omega)]
      · simp only [Bool.and_eq_true, decide_eq_true_eq] at h1
        have := ih (some (need - 1, acc * 64 + (b - 128), 128, 191)) cs
          (stInv_step need acc lo hi b hinv h1.1 h2) h
        simpa using this

/-- A byte list that fails strict UTF-8 decoding from the start state contains
a non-printable byte. -/
theorem utf8DecodeGo_none_all : ∀ (l : List Nat) (st : Option (Nat × Nat × Nat × Nat)),
    utf8DecodeGo l st = none →
    (match st with | none => l.all printableChar = false | some _ => True) := by
  intro l
  induction l with
  | nil =>
    intro st h
    rcases st with _ | p
    · simp [utf8DecodeGo] at h
    · trivial
  | cons b rest ih =>
    intro st h
    rcases st with _ | ⟨need, acc, lo, hi⟩
    · rw [utf8DecodeGo] at h
      cases hstart : utf8Start b with
      | none =>
        simp only [List.all_cons, Bool.and_eq_false_iff]
        exact Or.inl (printableChar_false_of_high b (by
          have := utf8Start_none_high b hstart
          omega))
      | some x =>
        cases x with
        | inl cp =>
          rw [hstart] at h
          simp only [Option.map_eq_none'] at h
          have := ih none h
          simp_all
        | inr p =>
          obtain ⟨hb, _⟩ := utf8Start_inr b p hstart
          simp only [List.all_cons, Bool.and_eq_false_iff]
          exact Or.inl (printableChar_false_of_high b (by omega))
    · trivial

/-- The net effect of `check_ascii` on bytes: true exactly when every byte is
itself a printable character. -/
theorem check_ascii_eq_all (l : List Nat) : check_ascii l = l.all printableChar := by
  unfold check_ascii utf8Decode
  cases h : utf8DecodeGo l none with
  | none =>
    have := utf8DecodeGo_none_all l none h
    simp only [] at this
    simp [this]
  | some cs =>
    have := utf8DecodeGo_some_all l none cs trivial h
    simpa using this

/-! ## Claim C7 -/

/-- Claim C7: `check_ascii` returns false if and only if strict decoding of
the bytes fails or some byte falls outside the printable range; in particular
any byte outside that range forces a false result. -/
theorem check_ascii_false_iff (text : List Nat) :
    check_ascii text = false ↔
      (utf8Decode text = none ∨ ∃ b ∈ text, printableChar b = false) := by
  rw [check_ascii_eq_all]
  constructor
  · intro h
    right
    rcases List.all_eq_false.mp h with ⟨b, hb, hpb⟩
    exact ⟨b, hb, by simpa using hpb⟩
  · intro h
    rcases h with h | ⟨b, hb, hpb⟩
    · have := utf8DecodeGo_none_all text none h
      simpa using this
    · exact List.all_eq_false.mpr ⟨b, hb, by simp [hpb]⟩

/-! ## Claim C8 -/

theorem xor_key_text_getD : ∀ (a b : List Nat) (i : Nat),
    i < min a.length b.length →
    (xor_key_text a b).getD i 0 = Nat.xor (a.getD i 0) (b.getD i 0) := by
  intro a
  induction a with
  | nil =>
    intro b i h
    simp at h
  | cons x xs ih =>
    intro b i h
    cases b with
    | nil => simp at h
    | cons y ys =>
      cases i with
      | zero => simp [xor_key_text]
      | succ n =>
        simp only [xor_key_text, List.zipWith_cons_cons, List.getD_cons_succ]
        exact ih ys n (by simp at h; omega)

/-- Claim C8: `xor_key_text` is total (a Lean function), its result has
length `min (len a) (len b)`, and byte `i` of the result is
`a[i] XOR b[i]` for every `i` below that length. -/
theorem xor_key_text_spec (a b : List Nat) :
    (xor_key_text a b).length = min a.length b.length ∧
    ∀ i : Nat, i < min a.length b.length →
      (xor_key_text a b).getD i 0 = Nat.xor (a.getD i 0) (b.getD i 0) := by
  constructor
  · simp [xor_key_text]
  · exact xor_key_text_getD a b

/-- Witness for C8 at a concrete input. -/
theorem xor_key_text_spec_witness :
    (xor_key_text [1, 2] [3]).length = min 2 1 ∧
    (xor_key_text [1, 2] [3]).getD 0 0 = Nat.xor 1 3 :=
  ⟨(xor_key_text_spec [1, 2] [3]).1, (xor_key_text_spec [1, 2] [3]).2 0 (by decide)⟩

/-! ## Claim C9 -/

/-- Claim C9: with equal lengths, `xor_key_text` is an involution:
`combine(combine(a, b), b) = a`. -/
theorem xor_key_text_involution (a : List Nat) : ∀ b : List Nat,
    a.length = b.length → xor_key_text (xor_key_text a b) b = a := by
  induction a with
  | nil =>
    intro b h
    cases b with
    | nil => rfl
    | cons y ys => simp at h
  | cons x xs ih =>
    intro b h
    cases b with
    | nil => simp at h
    | cons y ys =>
      simp only [xor_key_text, List.zipWith_cons_cons, List.cons.injEq]
      constructor
      · show x ^^^ y ^^^ y = x
        rw [Nat.xor_assoc, Nat.xor_self, Nat.xor_zero]
      · exact ih ys (by simpa using h)

/-- Witness for C9 at a concrete input. -/
theorem xor_key_text_involution_witness :
    xor_key_text (xor_key_text [5, 6] [7, 8]) [7, 8] = [5, 6] :=
  xor_key_text_involution [5, 6] [7, 8] (by decide)

/-! ## Sorting lemmas -/

theorem insertDescBy_perm (key : α → Nat) (x : α) (l : List α) :
    (insertDescBy key x l).Perm (x :: l) := by
  induction l with
  | nil => exact List.Perm.refl _
  | cons y ys ih =>
    unfold insertDescBy
    split
    · exact (ih.cons y).trans (List.Perm.swap x y ys)
    · exact List.Perm.refl _

theorem pySortDescBy_perm (key : α → Nat) (l : List α) :
    (pySortDescBy key l).Perm l := by
  induction l with
  | nil => exact List.Perm.refl _
  | cons x xs ih =>
    have : pySortDescBy key (x :: xs) = insertDescBy key x (pySortDescBy key xs) := rfl
    rw [this]
    exact (insertDescBy_perm key x (pySortDescBy key xs)).trans (ih.cons x)

theorem insertDescBy_pairwise (key : α → Nat) (x : α) (l : List α)
    (h : List.Pairwise (fun a b => key b ≤ key a) l) :
    List.Pairwise (fun a b => key b ≤ key a) (insertDescBy key x l) := by
  induction l with
  | nil => simp [insertDescBy]
  | cons y ys ih =>
    rcases List.pairwise_cons.mp h with ⟨hy, hys⟩
    unfold insertDescBy
    split
    · rename_i hlt
      refine List.pairwise_cons.mpr ⟨?_, ih hys⟩
      intro z hz
      rcases List.mem_cons.mp ((insertDescBy_perm key x ys).mem_iff.mp hz) with rfl | hz2
      · omega
      · exact hy z hz2
    · rename_i hge
      refine List.pairwise_cons.mpr ⟨?_, h⟩
      intro z hz
      rcases List.mem_cons.mp hz with rfl | hz2
      · omega
      · have := hy z hz2
        omega

theorem pySortDescBy_pairwise (key : α → Nat) (l : List α) :
    List.Pairwise (fun a b => key b ≤ key a) (pySortDescBy key l) := by
  induction l with
  | nil => simp [pySortDescBy]
  | cons x xs ih => exact insertDescBy_pairwise key x (pySortDescBy key xs) ih

/-- The head of the descending sort is a maximal element of the input. -/
theorem pySortDescBy_head_max (key : α → Nat) (l : List α) (k : α) (rest : List α)
    (h : pySortDescBy key l = k :: rest) :
    k ∈ l ∧ ∀ x ∈ l, key x ≤ key k := by
  have hperm := pySortDescBy_perm key l
  constructor
  · exact hperm.mem_iff.mp (h ▸ List.mem_cons_self k rest)
  · intro x hx
    have hx2 : x ∈ k :: rest := h ▸ hperm.mem_iff.mpr hx
    rcases List.mem_cons.mp hx2 with rfl | hx3
    · exact Nat.le_refl _
    · have hpw := pySortDescBy_pairwise key l
      rw [h] at hpw
      exact (List.pairwise_cons.mp hpw).1 x hx3

/-! ## Claim C6 -/

theorem scored_map_fst (wf : WordFinder) (ws : List (List Nat)) :
    (ws.filterMap (fun w =>
      let f := freqOf wf w
      if f ≠ 0 then some (w, f) else none)).map Prod.fst =
    ws.filter (fun w => freqOf wf w ≠ 0) := by
  induction ws with
  | nil => rfl
  | cons w ws ih =>
    by_cases h : freqOf wf w = 0
    · simp [List.filterMap_cons, List.filter_cons, h]
      simpa [ite_not, decide_not] using ih
    · simp [List.filterMap_cons, List.filter_cons, h]
      simpa [ite_not, decide_not] using ih

theorem scored_snd_eq (wf : WordFinder) (ws : List (List Nat)) :
    ∀ p ∈ ws.filterMap (fun w =>
      let f := freqOf wf w
      if f ≠ 0 then some (w, f) else none), p.2 = freqOf wf p.1 := by
  intro p hp
  rcases List.mem_filterMap.mp hp with ⟨w, _, hw⟩
  dsimp only [] at hw
  split at hw
  · cases hw
    rfl
  · cases hw

/-- Claim C6 (amended): `sort_with_frequencies` returns, as a multiset,
exactly the input words of nonzero frequency (the frequency being the
maximum of the case-sensitive and lowercase counts, as in `freqOf`), and the
output is ordered by non-increasing frequency. -/
theorem sort_with_frequencies_perm_sorted (wf : WordFinder) (ws : List (List Nat)) :
    (sort_with_frequencies wf ws).Perm (ws.filter (fun w => freqOf wf w ≠ 0)) ∧
    List.Pairwise (fun a b => freqOf wf b ≤ freqOf wf a) (sort_with_frequencies wf ws) := by
  constructor
  · have h1 : (sort_with_frequencies wf ws).Perm
        ((ws.filterMap (fun w =>
          let f := freqOf wf w
          if f ≠ 0 then some (w, f) else none)).map Prod.fst) := by
      unfold sort_with_frequencies
      exact (pySortDescBy_perm (fun p => p.2) _).map Prod.fst
    rw [scored_map_fst] at h1
    exact h1
  · unfold sort_with_frequencies
    have hpw := pySortDescBy_pairwise (fun p : List Nat × Nat => p.2)
      (ws.filterMap (fun w =>
        let f := freqOf wf w
        if f ≠ 0 then some (w, f) else none))
    have hmem : ∀ p ∈ pySortDescBy (fun p : List Nat × Nat => p.2)
        (ws.filterMap (fun w =>
          let f := freqOf wf w
          if f ≠ 0 then some (w, f) else none)), p.2 = freqOf wf p.1 := by
      intro p hp
      exact scored_snd_eq wf ws p ((pySortDescBy_perm _ _).mem_iff.mp hp)
    rw [List.pairwise_map]
    refine hpw.imp_of_mem ?_
    intro a b ha hb hle
    rw [← hmem a ha, ← hmem b hb]
    exact hle

/-- Claim C6 counterexample: the source maximises the case-sensitive and
lowercase counts instead of falling back, so with counts The=2, the=10, xx=5
the source ranks "The" (via max 2 10 = 10) above "xx" (5), while the claimed
fallback lookup (The=2) would rank "xx" first. -/
theorem sort_with_frequencies_fallback_counterexample :
    sort_with_frequencies wfThe [[84, 104, 101], [120, 120]] =
      [[84, 104, 101], [120, 120]] ∧
    rank_by_frequency_spec wfThe [[84, 104, 101], [120, 120]] =
      [[120, 120], [84, 104, 101]] := by
  constructor
  · rfl
  · rfl

/-! ## Claim C10 -/

/-- Every completion of a one-word sentence starts with the space inserted
before the completed word (`base_sentence` is empty). -/
theorem get_matching_words_single_space (wf : WordFinder) (pre w : List Nat)
    (add_space : Bool) :
    ∀ c ∈ get_matching_words wf pre [w] add_space, c.head? = some 32 := by
  intro c hc
  unfold get_matching_words at hc
  simp only [List.dropLast_single] at hc
  split at hc
  · rcases List.mem_map.mp hc with ⟨s, hs, rfl⟩
    rcases List.mem_map.mp hs with ⟨v, _, rfl⟩
    simp [List.intercalate]
  · rcases List.mem_map.mp hc with ⟨v, _, rfl⟩
    simp [List.intercalate]

/-- XORing a guess whose first byte is a space against a nonempty ciphertext
gives a key that decodes that ciphertext to a space in position 0. -/
theorem xor_round_head_space (t c : List Nat) (ht : t ≠ []) (hc : c.head? = some 32) :
    (xor_key_text (xor_key_text t c) t).head? = some 32 := by
  rcases t with _ | ⟨a, t2⟩
  · exact absurd rfl ht
  rcases c with _ | ⟨c0, c2⟩
  · simp at hc
  simp only [List.head?_cons, Option.some.injEq] at hc
  subst hc
  simp only [xor_key_text, List.zipWith_cons_cons, List.head?_cons, Option.some.injEq]
  show a ^^^ 32 ^^^ a = 32
  rw [Nat.xor_comm a 32, Nat.xor_assoc, Nat.xor_self, Nat.xor_zero]

/-- Claim C10: when the decoded stream consists of exactly one
whitespace-delimited token, every candidate sentence produced by
`match_sentence` begins with a space, and therefore every candidate key
derived from such a stream forces plaintext byte 0 of the source ciphertext
to a space. -/
theorem match_sentence_single_token_space (wf : WordFinder) (sentence : List Nat)
    (strict add_space : Bool) (l : List (List Nat))
    (h1 : (pySplit (utf8DecodeIgnore sentence)).length = 1)
    (h2 : match_sentence wf sentence strict add_space = some l) :
    (∀ c ∈ l, c.head? = some 32) ∧
    (∀ t : List Nat, t ≠ [] → ∀ c ∈ l,
      (xor_key_text (xor_key_text t c) t).head? = some 32) := by
  obtain ⟨w, hw⟩ : ∃ w, pySplit (utf8DecodeIgnore sentence) = [w] := by
    rcases hw : pySplit (utf8DecodeIgnore sentence) with _ | ⟨w, ws⟩
    · rw [hw] at h1
      simp at h1
    · rw [hw] at h1
      simp only [List.length_cons] at h1
      have : ws = [] := List.length_eq_zero.mp (by omega)
      exact ⟨w, by rw [this]⟩
  have hhead : ∀ c ∈ l, c.head? = some 32 := by
    intro c hc
    unfold match_sentence at h2
    simp only [] at h2
    rw [hw] at h2
    split_ifs at h2 <;>
      first
        | (simp only [Option.some.injEq] at h2
           subst h2
           exact get_matching_words_single_space wf ([w].getLastD []) w add_space c hc)
        | exact absurd h2 (by simp)
  exact ⟨hhead, fun t ht c hc => xor_round_head_space t c ht (hhead c hc)⟩

/-- Witness for C10 at a concrete input: corpus {"abc": 5}, stream "ab". -/
theorem match_sentence_single_token_space_witness :
    (∀ c ∈ [[32, 97, 98, 99]], c.head? = some 32) ∧
    (∀ t : List Nat, t ≠ [] → ∀ c ∈ [[32, 97, 98, 99]],
      (xor_key_text (xor_key_text t c) t).head? = some 32) :=
  match_sentence_single_token_space wfAbc [97, 98] false false [[32, 97, 98, 99]]
    (by decide) (by decide)

/-! ## Claim C2 -/

/-- The nested acceptance tests of `filter_streams` collapse to one
condition: strict sentence validity, plus the extra punctuation filter when
`strict == 2`. -/
theorem fs_body_eq (wf : WordFinder) (sf : Nat) (key : List Nat) :
    (fun (acc : List (List Nat) × List (List Nat)) (text : List Nat) =>
      let decoded_text := xor_key_text key text
      if check_sentence wf decoded_text true then
        if sf = 2 then
          if extra_strict_check decoded_text then
            (acc.1 ++ [decoded_text], acc.2 ++ [key])
          else acc
        else (acc.1 ++ [decoded_text], acc.2 ++ [key])
      else acc) =
    (fun (acc : List (List Nat) × List (List Nat)) (text : List Nat) =>
      if check_sentence wf (xor_key_text key text) true
          && (if sf = 2 then extra_strict_check (xor_key_text key text) else true) then
        (acc.1 ++ [xor_key_text key text], acc.2 ++ [key])
      else acc) := by
  funext acc text
  dsimp only []
  split_ifs <;> simp_all

theorem foldl_pair_push (g : γ → Bool) (f1 : γ → List Nat) (k : List Nat) :
    ∀ (l : List γ) (acc : List (List Nat) × List (List Nat)),
      l.foldl (fun acc x => if g x then (acc.1 ++ [f1 x], acc.2 ++ [k]) else acc) acc =
      (acc.1 ++ l.filterMap (fun x => if g x then some (f1 x) else none),
       acc.2 ++ l.filterMap (fun x => if g x then some k else none)) := by
  intro l
  induction l with
  | nil =>
    intro acc
    simp
  | cons x xs ih =>
    intro acc
    by_cases h : g x = true
    · simp only [List.foldl_cons, h, if_true, List.filterMap_cons]
      rw [ih]
      simp [h]
    · simp only [List.foldl_cons, List.filterMap_cons]
      rw [if_neg (by simp [h]), ih]
      simp [h]

theorem foldl_flat (F : List Nat → List (List Nat) × List (List Nat) →
      List (List Nat) × List (List Nat))
    (G1 G2 : List Nat → List (List Nat))
    (hF : ∀ k acc, F k acc = (acc.1 ++ G1 k, acc.2 ++ G2 k)) :
    ∀ (kl : List (List Nat)) (acc : List (List Nat) × List (List Nat)),
      kl.foldl (fun acc k => F k acc) acc =
      (acc.1 ++ kl.flatMap G1, acc.2 ++ kl.flatMap G2) := by
  intro kl
  induction kl with
  | nil =>
    intro acc
    simp
  | cons k ks ih =>
    intro acc
    simp only [List.foldl_cons, List.flatMap_cons]
    rw [hF, ih]
    simp

/-- `filter_streams` returns one (decode, key) pair per (key, text) pair
passing the acceptance condition, keys in the nested-loop order. -/
theorem filter_streams_eq (wf : WordFinder) (sf : Nat) (kl tl : List (List Nat)) :
    filter_streams wf kl tl sf =
    (kl.flatMap (fun key => tl.filterMap (fun text =>
        if check_sentence wf (xor_key_text key text) true
            && (if sf = 2 then extra_strict_check (xor_key_text key text) else true)
        then some (xor_key_text key text) else none)),
     kl.flatMap (fun key => tl.filterMap (fun text =>
        if check_sentence wf (xor_key_text key text) true
            && (if sf = 2 then extra_strict_check (xor_key_text key text) else true)
        then some key else none))) := by
  unfold filter_streams
  have h := foldl_flat
    (fun key acc => tl.foldl
      (fun acc text =>
        if check_sentence wf (xor_key_text key text) true
            && (if sf = 2 then extra_strict_check (xor_key_text key text) else true) then
          (acc.1 ++ [xor_key_text key text], acc.2 ++ [key])
        else acc) acc)
    (fun key => tl.filterMap (fun text =>
        if check_sentence wf (xor_key_text key text) true
            && (if sf = 2 then extra_strict_check (xor_key_text key text) else true)
        then some (xor_key_text key text) else none))
    (fun key => tl.filterMap (fun text =>
        if check_sentence wf (xor_key_text key text) true
            && (if sf = 2 then extra_strict_check (xor_key_text key text) else true)
        then some key else none))
    (fun key acc => foldl_pair_push
      (fun text => check_sentence wf (xor_key_text key text) true
          && (if sf = 2 then extra_strict_check (xor_key_text key text) else true))
      (fun text => xor_key_text key text) key tl acc)
    kl ([], [])
  simp only [List.nil_append] at h
  rw [← h]
  congr 1
  funext acc key
  rw [fs_body_eq wf sf key]

/-- A key's count becomes positive through a `Counter.update` exactly when it
was already positive or the key occurs in the update list. -/
theorem ctrCount_ctrIncr (k x : List Nat) (c : List (List Nat × Nat)) :
    ctrCount k (ctrIncr x c) = if x = k then ctrCount k c + 1 else ctrCount k c := by
  induction c with
  | nil =>
    by_cases h : x = k <;> simp [ctrIncr, ctrCount, h]
  | cons e rest ih =>
    by_cases he : e.1 = x
    · by_cases hk : x = k
      · simp [ctrIncr, ctrCount, he, hk, he.trans hk]
      · have : ¬e.1 = k := by rw [he]; exact hk
        simp [ctrIncr, ctrCount, he, hk, this]
    · by_cases hek : e.1 = k
      · have hkx : ¬k = x := fun hh => he (hek.trans hh)
        have hxk : ¬x = k := fun hh => hkx hh.symm
        simp [ctrIncr, ctrCount, he, hek, hkx, hxk]
      · simp [ctrIncr, ctrCount, he, hek, ih]

theorem ctrCount_ctrUpdate_pos (k : List Nat) :
    ∀ (ks : List (List Nat)) (c : List (List Nat × Nat)),
      0 < ctrCount k (ctrUpdate c ks) ↔ 0 < ctrCount k c ∨ k ∈ ks := by
  intro ks
  induction ks with
  | nil =>
    intro c
    simp [ctrUpdate]
  | cons x xs ih =>
    intro c
    have : ctrUpdate c (x :: xs) = ctrUpdate (ctrIncr x c) xs := rfl
    rw [this, ih, ctrCount_ctrIncr]
    by_cases h : x = k
    · subst h
      simp [List.mem_cons]
    · simp only [h, if_false, List.mem_cons]
      constructor
      · rintro (h1 | h2)
        · exact Or.inl h1
        · exact Or.inr (Or.inr h2)
      · rintro (h1 | h2 | h3)
        · exact Or.inl h1
        · exact absurd h2.symm h
        · exact Or.inr h3

/-- Claim C2 (amended): inside the tallying step of
`identify_potential_keys`, a candidate key receives one tally increment per
filtered ciphertext whose decode passes the strict sentence check (with the
extra punctuation filter when strictness is 2); hence its tally becomes
positive exactly when it already was, or at least one filtered ciphertext
passes - not only when all of them do. -/
theorem tally_pos_iff (wf : WordFinder) (kl tl : List (List Nat)) (sf : Nat)
    (c : List (List Nat × Nat)) (key : List Nat) :
    0 < ctrCount key (ctrUpdate c (filter_streams wf kl tl sf).2) ↔
      0 < ctrCount key c ∨ (key ∈ kl ∧ ∃ t ∈ tl,
        check_sentence wf (xor_key_text key t) true = true ∧
        (sf = 2 → extra_strict_check (xor_key_text key t) = true)) := by
  rw [ctrCount_ctrUpdate_pos]
  have hmem : key ∈ (filter_streams wf kl tl sf).2 ↔ key ∈ kl ∧ ∃ t ∈ tl,
      check_sentence wf (xor_key_text key t) true = true ∧
      (sf = 2 → extra_strict_check (xor_key_text key t) = true) := by
    rw [filter_streams_eq]
    simp only [List.mem_flatMap, List.mem_filterMap]
    constructor
    · rintro ⟨k2, hk2, t, ht, hif⟩
      by_cases hcond : (check_sentence wf (xor_key_text k2 t) true
          && (if sf = 2 then extra_strict_check (xor_key_text k2 t) else true)) = true
      · rw [if_pos hcond] at hif
        simp only [Option.some.injEq] at hif
        subst hif
        simp only [Bool.and_eq_true] at hcond
        refine ⟨hk2, t, ht, hcond.1, fun h2 => ?_⟩
        have h3 := hcond.2
        rw [if_pos h2] at h3
        exact h3
      · rw [if_neg hcond] at hif
        cases hif
    · rintro ⟨hk, t, ht, hcs, hex⟩
      have hcond : (check_sentence wf (xor_key_text key t) true
          && (if sf = 2 then extra_strict_check (xor_key_text key t) else true)) = true := by
        simp only [Bool.and_eq_true]
        refine ⟨hcs, ?_⟩
        by_cases h2 : sf = 2
        · rw [if_pos h2]
          exact hex h2
        · rw [if_neg h2]
      exact ⟨key, hk, t, ht, by rw [if_pos hcond]⟩
  rw [hmem]

/-- Claim C2 counterexample: with corpus {"abc": 5}, current key "ab" (97 98)
and ciphertexts [0,0,0,0] and [27,24,0], the candidate key " abc" (32 97 98
99) decodes the second filtered ciphertext to ";yb", which is not a valid
strict sentence, yet the tally still counts the candidate (from the first
ciphertext alone). -/
theorem tally_partial_candidate_counterexample :
    0 < ctrCount [32, 97, 98, 99]
        (ipkCounted wfAbc [97, 98] [[0, 0, 0, 0], [27, 24, 0]] 2 false) ∧
    [27, 24, 0] ∈ ([[0, 0, 0, 0], [27, 24, 0]] : List (List Nat)).filter
        (fun t => ([97, 98] : List Nat).length < t.length) ∧
    check_sentence wfAbc (xor_key_text [32, 97, 98, 99] [27, 24, 0]) true = false := by
  refine ⟨by decide, by decide, by decide⟩

/-- Witness for the amended C2 at a concrete input (the tally of " abc"
becomes positive although the second ciphertext fails the sentence check). -/
theorem tally_pos_iff_witness :
    0 < ctrCount [32, 97, 98, 99] (ctrUpdate []
      (filter_streams wfAbc [[32, 97, 98, 99]] [[0, 0, 0, 0], [27, 24, 0]] 2).2) :=
  (tally_pos_iff wfAbc [[32, 97, 98, 99]] [[0, 0, 0, 0], [27, 24, 0]] 2 [] [32, 97, 98, 99]).mpr
    (Or.inr ⟨by decide, [0, 0, 0, 0], by decide, by decide, fun h => by decide⟩)

/-! ## Claim C1 -/

theorem ctrMem_ctrSet (k : List Nat) (v : Nat) :
    ∀ c, ctrMem k (ctrSet k v c) = true := by
  intro c
  induction c with
  | nil => simp [ctrSet, ctrMem]
  | cons e rest ih =>
    by_cases h : e.1 = k
    · simp [ctrSet, ctrMem, h]
    · simp [ctrSet, ctrMem, h, ih]

theorem not_mem_ctrKeys_ctrDel (k : List Nat) (c : List (List Nat × Nat)) :
    k ∉ ctrKeys (ctrDel k c) := by
  intro hk
  rcases List.mem_map.mp hk with ⟨e, he, hfst⟩
  have h2 := List.of_mem_filter he
  simp at h2
  exact h2 hfst

/-- With strictness 0 the tally deletes the unextended key, so it never
appears among the survivors. -/
theorem target_not_mem_ipkSurvivors_strict0 (wf : WordFinder) (target_key : List Nat)
    (target_texts : List (List Nat)) (add_space : Bool) :
    target_key ∉ ipkSurvivors wf target_key target_texts 0 add_space := by
  intro hmem
  unfold ipkSurvivors at hmem
  simp only [] at hmem
  split at hmem
  · simp at hmem
  · rcases List.mem_filter.mp hmem with ⟨hk, _⟩
    unfold ipkCounted at hk
    simp only [] at hk
    split at hk
    · simp [ctrKeys] at hk
    · rw [if_pos] at hk
      · exact not_mem_ctrKeys_ctrDel _ _ hk
      · simp [ctrMem_ctrSet]

/-- Claim C1 (amended): with `strict_filter = 0` the original key is deleted
from the tally and can never be proposed, neither as the single key nor as a
member of the returned candidate list.  (For nonzero strictness the original
key's tally is merely zeroed and the key can still be proposed, as the
counterexample shows.) -/
theorem identify_potential_keys_strict0_not_target (wf : WordFinder)
    (target_key : List Nat) (target_texts : List (List Nat)) (add_space : Bool) :
    (∀ k, identify_potential_keys wf target_key target_texts 0 add_space = Sum.inl k →
      k ≠ target_key) ∧
    (∀ l, identify_potential_keys wf target_key target_texts 0 add_space = Sum.inr l →
      target_key ∉ l) := by
  have hnot := target_not_mem_ipkSurvivors_strict0 wf target_key target_texts add_space
  constructor
  · intro k hk heq
    subst heq
    unfold identify_potential_keys at hk
    simp only [] at hk
    split at hk
    · split at hk
      · cases hk
      · rename_i hsort
        simp only [Sum.inl.injEq] at hk
        subst hk
        exact hnot (pySortDescBy_head_max List.length _ _ _ hsort).1
    · cases hk
  · intro l hl hmem
    unfold identify_potential_keys at hl
    simp only [] at hl
    split at hl
    · split at hl
      · simp only [Sum.inr.injEq] at hl
        subst hl
        simp at hmem
      · cases hl
    · simp only [Sum.inr.injEq] at hl
      subst hl
      exact hnot hmem

/-- Witness for the amended C1: with corpus {"abc": 5} and strictness 0, the
single returned key " abc" differs from the current key "ab". -/
theorem identify_potential_keys_strict0_not_target_witness :
    ([32, 97, 98, 99] : List Nat) ≠ [97, 98] :=
  (identify_potential_keys_strict0_not_target wfAbc [97, 98] [[0, 0, 0, 0]] false).1
    [32, 97, 98, 99] (by decide)

/-- Claim C1 counterexample: with an empty corpus, strictness 2 and a single
ciphertext, no guess survives, the zero-tallied original key is re-validated
and returned as the single proposed key - the unextended current key is
proposed as the answer. -/
theorem identify_potential_keys_returns_target :
    identify_potential_keys wfEmpty [96, 96] [[1, 2, 3, 4]] 2 false =
      Sum.inl [96, 96] := by
  decide

/-! ## Claim C3 -/

theorem verify_substring_keys_iff (keys : List (List Nat)) :
    verify_substring_keys keys = true ↔
      (keys ≠ [] ∧ ∀ k ∈ keys, pyBytesContains (pyMinByLen keys) k = true) := by
  cases keys with
  | nil => simp [verify_substring_keys]
  | cons x xs => simp [verify_substring_keys, List.all_eq_true]

/-- Claim C3 (amended): `identify_potential_keys` returns a single key
exactly when the surviving candidates are nonempty and the first shortest
survivor is a contiguous byte *substring* (not necessarily a byte-prefix) of
every survivor; the returned key is then a longest survivor (and a member of
the survivor list); otherwise the full survivor list is returned. -/
theorem identify_potential_keys_substring_rule (wf : WordFinder)
    (target_key : List Nat) (target_texts : List (List Nat)) (strict_filter : Nat)
    (add_space : Bool) :
    (identify_potential_keys wf target_key target_texts strict_filter add_space =
        Sum.inr (ipkSurvivors wf target_key target_texts strict_filter add_space) ∧
      ¬(ipkSurvivors wf target_key target_texts strict_filter add_space ≠ [] ∧
        ∀ k ∈ ipkSurvivors wf target_key target_texts strict_filter add_space,
          pyBytesContains
            (pyMinByLen (ipkSurvivors wf target_key target_texts strict_filter add_space))
            k = true)) ∨
    (∃ k, identify_potential_keys wf target_key target_texts strict_filter add_space =
        Sum.inl k ∧
      (ipkSurvivors wf target_key target_texts strict_filter add_space ≠ [] ∧
        ∀ k2 ∈ ipkSurvivors wf target_key target_texts strict_filter add_space,
          pyBytesContains
            (pyMinByLen (ipkSurvivors wf target_key target_texts strict_filter add_space))
            k2 = true) ∧
      k ∈ ipkSurvivors wf target_key target_texts strict_filter add_space ∧
      ∀ k2 ∈ ipkSurvivors wf target_key target_texts strict_filter add_space,
        k2.length ≤ k.length) := by
  by_cases hv : verify_substring_keys
      (ipkSurvivors wf target_key target_texts strict_filter add_space) = true
  · right
    rcases hsort : pySortDescBy List.length
        (ipkSurvivors wf target_key target_texts strict_filter add_space) with _ | ⟨k, rest⟩
    · exfalso
      have hperm := pySortDescBy_perm List.length
        (ipkSurvivors wf target_key target_texts strict_filter add_space)
      rw [hsort] at hperm
      have hnil : ipkSurvivors wf target_key target_texts strict_filter add_space = [] :=
        hperm.symm.eq_nil
      rw [hnil] at hv
      simp [verify_substring_keys] at hv
    · refine ⟨k, ?_, (verify_substring_keys_iff _).mp hv, ?_, ?_⟩
      · unfold identify_potential_keys
        simp only []
        rw [if_pos hv, hsort]
      · exact (pySortDescBy_head_max List.length _ k rest hsort).1
      · exact (pySortDescBy_head_max List.length _ k rest hsort).2
  · left
    constructor
    · unfold identify_potential_keys
      simp only []
      rw [if_neg hv]
    · intro hcontra
      exact hv ((verify_substring_keys_iff _).mpr hcontra)

/-- Claim C3 counterexample: with corpus {"abc": 5}, key "ab" and ciphertext
[0,0,0,0], a single key is returned although the shortest survivor "ab" is
not a byte-prefix of the survivor " abc" (it is an inner substring). -/
theorem identify_potential_keys_not_prefix_counterexample :
    (∃ k, identify_potential_keys wfAbc [97, 98] [[0, 0, 0, 0]] 2 false = Sum.inl k) ∧
    ¬(∀ k ∈ ipkSurvivors wfAbc [97, 98] [[0, 0, 0, 0]] 2 false,
        (pyMinByLen (ipkSurvivors wfAbc [97, 98] [[0, 0, 0, 0]] 2 false)).isPrefixOf k
          = true) := by
  constructor
  · exact ⟨[32, 97, 98, 99], by decide⟩
  · decide

/-! ## Claim C4 -/

/-- Claim C4: `get_input_key` either returns the previous key unchanged (on
interrupt, an unparseable or out-of-range index, a non-ASCII fragment, or
failed stream validation), or it returns the key derived from the oracle's
fragment and chosen ciphertext, and then only when the non-strict
printable-ASCII stream validation passes (with a nonempty stream, by Python
truthiness) across the filtered ciphertext set. -/
theorem get_input_key_prior_or_validated (target_key : List Nat)
    (target_texts : List (List Nat)) (o : Oracle) :
    (get_input_key target_key target_texts o).1 = target_key ∨
    (∃ idx frag t xs,
      pyIndex (target_texts.filter (fun x => target_key.length < x.length)) idx = some t ∧
      check_ascii frag = true ∧
      check_potential_stream (xor_key_text frag t)
        (target_texts.filter (fun x => target_key.length < x.length)) false = some xs ∧
      xs ≠ [] ∧
      (get_input_key target_key target_texts o).1 = xor_key_text frag t) := by
  unfold get_input_key
  simp only []
  split
  · exact Or.inl rfl
  · rename_i sline o1 hne1
    split
    · exact Or.inl rfl
    · rename_i idx hparse
      split
      · exact Or.inl rfl
      · rename_i frag o2 hne2
        by_cases hascii : check_ascii frag = true
        · rw [if_pos hascii]
          split
          · exact Or.inl rfl
          · rename_i t hpy
            split
            · exact Or.inl rfl
            · rename_i xs hcps
              by_cases hxs : xs.isEmpty = true
              · rw [if_pos hxs]
                exact Or.inl rfl
              · rw [if_neg hxs]
                refine Or.inr ⟨idx, frag, t, xs, hpy, hascii, hcps,
                  fun hnil => hxs (by simp [hnil]), rfl⟩
        · rw [if_neg hascii]
          exact Or.inl rfl

/-! ## Claim C5 -/

/-- Every snapshot recorded by `validateAndClean` is a cleanup snapshot. -/
theorem validateAndClean_snaps_cleanup (mnkPrior : Option (List Nat))
    (cand : List Nat) (set_text : List (List Nat)) (o : Oracle) :
    ∀ s ∈ (validateAndClean mnkPrior cand set_text o).2.1,
      s.kind = SnapKind.cleanup := by
  intro s hs
  unfold validateAndClean at hs
  split at hs
  · simp at hs
  · split at hs
    · rename_i r o1 heq htr
      simp only [] at hs
      rcases hcar : check_and_remove_invalid_chars (r.getD []) set_text o1 with
        ⟨_ | ⟨st2, pts⟩, o2⟩ <;> rw [hcar] at hs <;> simp_all
    · simp at hs

/-- Every snapshot recorded by the no-progress retry block is a cleanup
snapshot. -/
theorem noProgressInner_snaps_cleanup (wf : WordFinder) (tk : List Nat)
    (st : List (List Nat)) (o : Oracle) :
    ∀ s ∈ (noProgressInner wf tk st o).2.1, s.kind = SnapKind.cleanup := by
  intro s hs
  unfold noProgressInner at hs
  simp only [] at hs
  rcases hipk : identify_potential_keys wf tk st 0 true with k | l
  · rw [hipk] at hs
    simp only [] at hs
    rcases hvac : validateAndClean none k st o with ⟨vc, snaps, o3⟩
    rw [hvac] at hs
    have hm : s ∈ (validateAndClean none k st o).2.1 := by
      rw [hvac]
      cases vc <;> exact hs
    exact validateAndClean_snaps_cleanup _ _ _ _ s hm
  · rw [hipk] at hs
    simp only [] at hs
    rcases hgn : get_new_keys_list l o with ⟨gn, o1⟩
    rw [hgn] at hs
    cases gn with
    | exn =>
      simp only [] at hs
      rcases hvac : validateAndClean none (get_input_key tk st o1).1 st
          (get_input_key tk st o1).2 with ⟨vc, snaps, o3⟩
      rw [hvac] at hs
      have hm : s ∈ (validateAndClean none (get_input_key tk st o1).1 st
          (get_input_key tk st o1).2).2.1 := by
        rw [hvac]
        cases vc <;> exact hs
      exact validateAndClean_snaps_cleanup _ _ _ _ s hm
    | ok mnkCand =>
      simp only [] at hs
      cases mnkCand with
      | none =>
        (try simp only [] at hs)
        by_cases hempty : st.isEmpty = true
        · rw [if_pos hempty] at hs
          rcases hne : nextEvent o1 with ⟨ev, o2⟩
          rw [hne] at hs
          cases ev <;> simp_all
        · rw [if_neg hempty] at hs
          (try simp only [] at hs)
          rcases hvac : validateAndClean none (get_input_key tk st o1).1 st
              (get_input_key tk st o1).2 with ⟨vc, snaps, o3⟩
          rw [hvac] at hs
          have hm : s ∈ (validateAndClean none (get_input_key tk st o1).1 st
              (get_input_key tk st o1).2).2.1 := by
            rw [hvac]
            cases vc <;> exact hs
          exact validateAndClean_snaps_cleanup _ _ _ _ s hm
      | some cand =>
        (try simp only [] at hs)
        rcases hvac : validateAndClean none cand st o1 with ⟨vc, snaps, o3⟩
        rw [hvac] at hs
        have hm : s ∈ (validateAndClean none cand st o1).2.1 := by
          rw [hvac]
          cases vc <;> exact hs
        exact validateAndClean_snaps_cleanup _ _ _ _ s hm

/-- Every snapshot in a `sessionCommon` trace is the iteration's loop-top
snapshot, a cleanup snapshot, or belongs to a continuation trace. -/
theorem sessionCommon_trace_cases (wf : WordFinder) (tk ntk : List Nat)
    (st1 inv : List (List Nat)) (o : Oracle) (snapTop : Snap)
    (recur : List Nat → List (List Nat) → List (List Nat) → Oracle →
      SessionResult × List Snap) :
    ∀ s ∈ (sessionCommon wf tk ntk st1 inv o snapTop recur).2,
      s = snapTop ∨ s.kind = SnapKind.cleanup ∨
      ∃ mnk st inv2 o2, s ∈ (recur mnk st inv2 o2).2 := by
  intro s hs
  unfold sessionCommon at hs
  rcases hv : validate_key ntk o with ⟨vr, o1⟩
  rw [hv] at hs
  cases vr with
  | intr =>
    simp only [List.mem_singleton] at hs
    exact Or.inl hs
  | ans r =>
    simp only [] at hs
    by_cases hcond : (optTruthy r && !decide (tk = ntk)) = true
    · rw [if_pos hcond] at hs
      simp only [] at hs
      rcases List.mem_cons.mp hs with rfl | hs2
      · exact Or.inl rfl
      · exact Or.inr (Or.inr ⟨ntk, st1, inv, o1, hs2⟩)
    · rw [if_neg hcond] at hs
      by_cases htr : optTruthy r = true
      · rw [if_pos htr] at hs
        rcases hnp : noProgressInner wf tk st1 o1 with ⟨np, snaps, o2⟩
        rw [hnp] at hs
        have hsnaps : ∀ s2 ∈ snaps, s2.kind = SnapKind.cleanup := by
          intro s2 h2
          apply noProgressInner_snaps_cleanup wf tk st1 o1 s2
          rw [hnp]
          exact h2
        cases np with
        | intr m =>
          simp only [] at hs
          rcases List.mem_cons.mp hs with rfl | hs2
          · exact Or.inl rfl
          · exact Or.inr (Or.inl (hsnaps s hs2))
        | res mnk2 mnkCand st2 pts =>
          simp only [] at hs
          by_cases hm2 : optTruthy mnk2 = true
          · rw [if_pos hm2] at hs
            simp only [] at hs
            rcases List.mem_cons.mp hs with rfl | hs2
            · exact Or.inl rfl
            · rcases List.mem_append.mp hs2 with hs3 | hs3
              · exact Or.inr (Or.inl (hsnaps s hs3))
              · exact Or.inr (Or.inr ⟨mnk2.getD [], st2, inv ++ pts, o2, hs3⟩)
          · rw [if_neg hm2] at hs
            try simp only [] at hs
            rcases hvac : validateAndClean mnk2 (get_input_key tk st2 o2).1 st2
                (get_input_key tk st2 o2).2 with ⟨vc, snaps2, o4⟩
            rw [hvac] at hs
            have hsnaps2 : ∀ s2 ∈ snaps2, s2.kind = SnapKind.cleanup := by
              intro s2 h2
              apply validateAndClean_snaps_cleanup mnk2 (get_input_key tk st2 o2).1 st2
                (get_input_key tk st2 o2).2 s2
              rw [hvac]
              exact h2
            cases vc with
            | intr m =>
              simp only [] at hs
              rcases List.mem_cons.mp hs with rfl | hs2
              · exact Or.inl rfl
              · rcases List.mem_append.mp hs2 with hs3 | hs3
                · exact Or.inr (Or.inl (hsnaps s hs3))
                · exact Or.inr (Or.inl (hsnaps2 s hs3))
            | res mnk3 st3 pts2 =>
              simp only [] at hs
              by_cases hm3 : optTruthy mnk3 = true
              · rw [if_pos hm3] at hs
                simp only [] at hs
                rcases List.mem_cons.mp hs with rfl | hs2
                · exact Or.inl rfl
                · rcases List.mem_append.mp hs2 with hs3 | hs3
                  · rcases List.mem_append.mp hs3 with hs4 | hs4
                    · exact Or.inr (Or.inl (hsnaps s hs4))
                    · exact Or.inr (Or.inl (hsnaps2 s hs4))
                  · exact Or.inr (Or.inr ⟨mnk3.getD [], st3, inv ++ pts ++ pts2, o4, hs3⟩)
              · rw [if_neg hm3] at hs
                rcases List.mem_cons.mp hs with rfl | hs2
                · exact Or.inl rfl
                · rcases List.mem_append.mp hs2 with hs3 | hs3
                  · exact Or.inr (Or.inl (hsnaps s hs3))
                  · exact Or.inr (Or.inl (hsnaps2 s hs3))
      · rw [if_neg htr] at hs
        try simp only [] at hs
        rcases hvac : validateAndClean none (get_input_key tk st1 o1).1 st1
            (get_input_key tk st1 o1).2 with ⟨vc, snaps2, o4⟩
        rw [hvac] at hs
        have hsnaps2 : ∀ s2 ∈ snaps2, s2.kind = SnapKind.cleanup := by
          intro s2 h2
          apply validateAndClean_snaps_cleanup none (get_input_key tk st1 o1).1 st1
            (get_input_key tk st1 o1).2 s2
          rw [hvac]
          exact h2
        cases vc with
        | intr m =>
          simp only [] at hs
          rcases List.mem_cons.mp hs with rfl | hs2
          · exact Or.inl rfl
          · exact Or.inr (Or.inl (hsnaps2 s hs2))
        | res mnk3 st3 pts2 =>
          simp only [] at hs
          by_cases hm3 : optTruthy mnk3 = true
          · rw [if_pos hm3] at hs
            simp only [] at hs
            rcases List.mem_cons.mp hs with rfl | hs2
            · exact Or.inl rfl
            · rcases List.mem_append.mp hs2 with hs3 | hs3
              · exact Or.inr (Or.inl (hsnaps2 s hs3))
              · exact Or.inr (Or.inr ⟨mnk3.getD [], st3, inv ++ pts2, o4, hs3⟩)
          · rw [if_neg hm3] at hs
            rcases List.mem_cons.mp hs with rfl | hs2
            · exact Or.inl rfl
            · exact Or.inr (Or.inl (hsnaps2 s hs2))

/-- C5 (amended): in every `interactive_crib_dragging` loop iteration, the
state recorded right after the pruning step `set_text = [x for x in set_text
if len(x) > len(target_key)]` — the `loopTop` snapshot — contains only
ciphertexts strictly longer than the current key.  (The spec's stronger
claim, that every decode of the session acts on such a set, fails at the
`check_and_remove_invalid_chars` cleanup decodes: see the counterexample.) -/
theorem sessionLoop_loopTop_pruned (wf : WordFinder) :
    ∀ fuel tkVar mnk set_text inv o,
      ∀ s ∈ (sessionLoop wf fuel tkVar mnk set_text inv o).2,
        s.kind = SnapKind.loopTop → ∀ t ∈ s.texts, s.key.length < t.length := by
  intro fuel
  induction fuel with
  | zero =>
    intro tkVar mnk set_text inv o s hs
    rw [sessionLoop] at hs
    cases hs
  | succ fuel ih =>
    intro tkVar mnk set_text inv o s hs hk t ht
    rw [sessionLoop] at hs
    by_cases h1 : set_text.length = 1
    · rw [if_pos h1] at hs
      cases hs
    · rw [if_neg h1] at hs
      simp only [] at hs
      have hTop : ∀ u ∈ set_text.filter (fun x => mnk.length < x.length),
          mnk.length < u.length := by
        intro u hu
        exact of_decide_eq_true (List.mem_filter.mp hu).2
      by_cases h2 : (set_text.filter (fun x => mnk.length < x.length)).length = 1
      · rw [if_pos h2] at hs
        simp only [List.mem_singleton] at hs
        subst hs
        exact hTop t ht
      · rw [if_neg h2] at hs
        rcases hipk : identify_potential_keys wf mnk
            (set_text.filter (fun x => mnk.length < x.length)) 2 true with k | l
        · rw [hipk] at hs
          try simp only [] at hs
          rcases sessionCommon_trace_cases _ _ _ _ _ _ _ _ s hs with
            rfl | hcl | ⟨mnk2, st, inv2, o2, hr⟩
          · exact hTop t ht
          · exact absurd (hcl.symm.trans hk) (by decide)
          · exact ih mnk mnk2 st inv2 o2 s hr hk t ht
        · rw [hipk] at hs
          try simp only [] at hs
          by_cases hl : l.isEmpty = true
          · rw [if_pos hl] at hs
            simp only [List.mem_singleton] at hs
            subst hs
            exact hTop t ht
          · rw [if_neg hl] at hs
            try simp only [] at hs
            rcases hvk : validate_key ((pySortAscBy List.length l).getLastD []) o with
              ⟨vr, o1⟩
            rw [hvk] at hs
            cases vr with
            | intr =>
              try simp only [] at hs
              simp only [List.mem_singleton] at hs
              subst hs
              exact hTop t ht
            | ans r =>
              try simp only [] at hs
              by_cases hr2 : optTruthy r = true
              · rw [if_pos hr2] at hs
                rcases sessionCommon_trace_cases _ _ _ _ _ _ _ _ s hs with
                  rfl | hcl | ⟨mnk2, st, inv2, o2, hr⟩
                · exact hTop t ht
                · exact absurd (hcl.symm.trans hk) (by decide)
                · exact ih mnk mnk2 st inv2 o2 s hr hk t ht
              · rw [if_neg hr2] at hs
                simp only [List.mem_singleton] at hs
                subst hs
                exact hTop t ht

/-- C5 counterexample to the spec's universal form: a session run in which a
cleanup decode (`check_and_remove_invalid_chars`, called with a newly
confirmed key before the loop re-prunes) acts on a ciphertext strictly
shorter than the key in use.  Concretely: texts of lengths 8 and 4, initial
key of length 2; the user rejects the proposed key, supplies plaintext
"abcdefgh" for text 0, and confirms; the resulting 8-byte key is used to
decode the still-unpruned set containing the 4-byte text. -/
theorem session_decode_longer_counterexample :
    ∃ s ∈ (interactive_crib_dragging wfEmpty 3 [96, 96]
        [[1, 2, 3, 4, 5, 6, 7, 8], [1, 2, 3, 4]] oracleRun).2,
      s.kind = SnapKind.cleanup ∧ ∃ t ∈ s.texts, t.length < s.key.length := by
  decide

/-- Witness: `sessionLoop_loopTop_pruned` applied to a concrete run whose
loop-top snapshot carries key [96, 96] and texts of lengths 4 and 3. -/
theorem sessionLoop_loopTop_pruned_witness :
    ([96, 96] : List Nat).length < ([1, 2, 3, 4] : List Nat).length :=
  sessionLoop_loopTop_pruned wfEmpty 1 [96, 96] [96, 96] [[1, 2, 3, 4], [1, 2, 3]] [] []
    ⟨SnapKind.loopTop, [96, 96], [[1, 2, 3, 4], [1, 2, 3]]⟩ (by decide) rfl
    [1, 2, 3, 4] (by decide)

end CribDragger

